import Mathlib

/-!
Verification development for the repository's Hough-transform pipeline.

The repository's only source file is a notebook cell that prepares an edge
mask and calls the library routine `cv2.HoughLinesP`; the probabilistic
Hough line detector itself is not part of the repository's sources.  The
detector below is therefore modelled from the specification's own algorithm
description (data model and §4.1 algorithm steps), while the notebook's
drawing/compositing tail is embedded from the source cell directly.
-/

namespace Hough

open Real

/-- A binary edge mask: a 2D grid of boolean edge values with fixed width
`W` and height `H`.  `data x y = true` marks pixel `(x, y)` as an edge
pixel. -/
structure EdgeMask where
  W : Nat
  H : Nat
  data : Nat → Nat → Bool

/-- The list of edge-pixel coordinates of a mask, enumerated over the grid
`[0,W) × [0,H)`. -/
def maskPixels (m : EdgeMask) : List (Nat × Nat) :=
  ((List.range m.W).product (List.range m.H)).filter (fun p => m.data p.1 p.2)

/-- One step of the injected-randomness shuffle: repeatedly pick the index
`rand pos % length` from the remaining list.  `fuel` bounds the recursion. -/
def shuffleFuel (rand : Nat → Nat) : Nat → Nat → List (Nat × Nat) → List (Nat × Nat)
  | _, 0, _ => []
  | pos, Nat.succ fuel, l =>
    if l.isEmpty then []
    else (l.getD (rand pos % l.length) (0, 0)) ::
      shuffleFuel rand (pos + 1) fuel (l.eraseIdx (rand pos % l.length))

/-- The sampling order of the edge pixels, driven by the injected random
source `rand` starting at stream position `pos` (the spec models the random
pixel-sampling order as an injected sequence-generator dependency). -/
def shuffle (rand : Nat → Nat) (pos : Nat) (l : List (Nat × Nat)) : List (Nat × Nat) :=
  shuffleFuel rand pos l.length l

/-- Number of angle buckets: `θ_k = k·thetaStep` for `k` ranging over
`[0, π/thetaStep)`. -/
noncomputable def numAngles (thetaStep : ℝ) : Nat := ⌈Real.pi / thetaStep⌉₊

/-- The angle of bucket `k`. -/
noncomputable def thetaOf (thetaStep : ℝ) (k : Nat) : ℝ := k * thetaStep

/-- Half-diagonal extent of the grid: `sqrt (W² + H²)`; distances `ρ` range
over `[−diagonal, +diagonal]`. -/
noncomputable def diagLen (W H : Nat) : ℝ := Real.sqrt ((W : ℝ) ^ 2 + (H : ℝ) ^ 2)

/-- Number of distance buckets covering `[−diagonal, +diagonal]` at
resolution `rho`. -/
noncomputable def numBuckets (W H : Nat) (rho : ℝ) : Nat :=
  ⌈2 * diagLen W H / rho⌉₊ + 1

/-- The Hough distance of pixel `p` at angle bucket `k`:
`ρ = x·cos θ_k + y·sin θ_k`. -/
noncomputable def rhoOf (thetaStep : ℝ) (k : Nat) (p : Nat × Nat) : ℝ :=
  (p.1 : ℝ) * Real.cos (thetaOf thetaStep k) + (p.2 : ℝ) * Real.sin (thetaOf thetaStep k)

/-- The distance-bucket index of pixel `p` at angle bucket `k` (offset by
the diagonal so the bucket index is a natural number). -/
noncomputable def bucketOf (W H : Nat) (rho thetaStep : ℝ) (k : Nat) (p : Nat × Nat) : Nat :=
  ⌊(rhoOf thetaStep k p + diagLen W H) / rho⌋₊

/-- Projection of pixel `p` onto the line direction of angle bucket `k`
(the direction vector of the line with normal angle `θ_k` is
`(−sin θ_k, cos θ_k)`). -/
noncomputable def projOf (thetaStep : ℝ) (k : Nat) (p : Nat × Nat) : ℝ :=
  -(p.1 : ℝ) * Real.sin (thetaOf thetaStep k) + (p.2 : ℝ) * Real.cos (thetaOf thetaStep k)

/-- The membership list of accumulator cell `c = (k, j)`: the pixels of `l`
whose distance bucket at angle `c.1` is `c.2`. -/
noncomputable def cellMembers (W H : Nat) (rho thetaStep : ℝ) (l : List (Nat × Nat))
    (c : Nat × Nat) : List (Nat × Nat) :=
  l.filter (fun p => bucketOf W H rho thetaStep c.1 p = c.2)

/-- The vote count of accumulator cell `c` over pixel list `l`. -/
noncomputable def cellVotes (W H : Nat) (rho thetaStep : ℝ) (l : List (Nat × Nat))
    (c : Nat × Nat) : Nat :=
  (cellMembers W H rho thetaStep l c).length

/-- Insert an element into a list sorted ascending by the real-valued key. -/
noncomputable def insertKey (key : Nat × Nat → ℝ) (a : Nat × Nat) :
    List (Nat × Nat) → List (Nat × Nat)
  | [] => [a]
  | b :: l =>
    if key a ≤ key b then a :: b :: l
    else b :: insertKey key a l

/-- Insertion sort ascending by a real-valued key (used to sort a cell's
member pixels by their projected position along the line direction). -/
noncomputable def sortKey (key : Nat × Nat → ℝ) : List (Nat × Nat) → List (Nat × Nat)
  | [] => []
  | a :: l => insertKey key a (sortKey key l)

/-- Split a projection-sorted pixel list into runs, breaking wherever two
consecutive projected positions differ by more than `g`. -/
noncomputable def splitRuns (key : Nat × Nat → ℝ) (g : ℝ) :
    List (Nat × Nat) → List (List (Nat × Nat))
  | [] => []
  | [a] => [[a]]
  | a :: b :: l =>
    if key b - key a ≤ g then
      match splitRuns key g (b :: l) with
      | [] => [[a]]
      | r :: rs => (a :: r) :: rs
    else [a] :: splitRuns key g (b :: l)

/-- A detected line segment: its two integer endpoint coordinates. -/
abbrev LineSegment := (Nat × Nat) × (Nat × Nat)

/-- The segment a projection-sorted run contributes: the run's extremal
pixels, provided the run's projected span reaches `minLineLength`. -/
noncomputable def runSeg (thetaStep : ℝ) (minLineLength : Nat) (k : Nat)
    (run : List (Nat × Nat)) : Option ((Nat × Nat) × (Nat × Nat)) :=
  match run.head?, run.getLast? with
  | some a, some b =>
    if (minLineLength : ℝ) ≤ projOf thetaStep k b - projOf thetaStep k a then
      some (a, b)
    else none
  | _, _ => none

/-- Extract the segments of one above-threshold cell at angle bucket `k`:
sort the member pixels by projected position, split into runs at gaps
larger than `maxLineGap`, and emit, for each run whose projected span is at
least `minLineLength`, the segment joining the run's extremal pixels. -/
noncomputable def extractFrom (thetaStep : ℝ) (minLineLength maxLineGap : Nat) (k : Nat)
    (members : List (Nat × Nat)) : List LineSegment :=
  (splitRuns (projOf thetaStep k) (maxLineGap : ℝ)
    (sortKey (projOf thetaStep k) members)).filterMap
    (runSeg thetaStep minLineLength k)

/-- Insert an element into a list sorted descending by a natural-number
key (used for the descending-vote scan order of the accumulator cells). -/
def insertDesc (key : Nat × Nat → Nat) (a : Nat × Nat) :
    List (Nat × Nat) → List (Nat × Nat)
  | [] => [a]
  | b :: l =>
    if key b ≤ key a then a :: b :: l
    else b :: insertDesc key a l

/-- Insertion sort descending by a natural-number key. -/
def sortDesc (key : Nat × Nat → Nat) : List (Nat × Nat) → List (Nat × Nat)
  | [] => []
  | a :: l => insertDesc key a (sortDesc key l)

/-- Scan the accumulator cells (already ordered by descending vote count)
against the remaining eligible pixels: a cell whose current membership
count still reaches `voteThreshold` has its segments extracted and its
contributing pixels removed from further voting (the spec's
duplicate-suppression rule); other cells emit nothing. -/
noncomputable def scanCells (W H : Nat) (rho thetaStep : ℝ)
    (voteThreshold minLineLength maxLineGap : Nat) :
    List (Nat × Nat) → List (Nat × Nat) → List LineSegment
  | [], _ => []
  | c :: cs, remaining =>
    if voteThreshold ≤ (remaining.filter
        (fun p => bucketOf W H rho thetaStep c.1 p = c.2)).length then
      extractFrom thetaStep minLineLength maxLineGap c.1
          (remaining.filter (fun p => bucketOf W H rho thetaStep c.1 p = c.2)) ++
        scanCells W H rho thetaStep voteThreshold minLineLength maxLineGap cs
          (remaining.filter (fun p => ¬ bucketOf W H rho thetaStep c.1 p = c.2))
    else
      scanCells W H rho thetaStep voteThreshold minLineLength maxLineGap cs remaining

/-- The parameter-validation error of the detector. -/
inductive DetectError where
  | invalidParameter : DetectError
deriving DecidableEq

/-- Modelled from the spec: the probabilistic Hough line detector
`detect(edgeMask, rho, thetaStep, voteThreshold, minLineLength, maxLineGap)`.
The repository itself delegates this computation to the external library
call `cv2.HoughLinesP`, so the algorithm is absent from the sources; this
definition follows the specification's §4.1 description: validate the
parameters first (`InvalidParameter` on non-positive resolutions, threshold
below 1, or a zero-area mask), sample the edge pixels in the order given by
the injected random source, accumulate votes over the discretized
(angle-bucket, distance-bucket) grid, then scan cells in descending vote
order, extracting gap-split runs of projected member pixels and removing an
extracted cell's contributing pixels from further voting. -/
noncomputable def detectFrom (rand : Nat → Nat) (pos : Nat) (m : EdgeMask)
    (rho thetaStep : ℝ) (voteThreshold minLineLength maxLineGap : Nat) :
    Except DetectError (List LineSegment) :=
  if rho ≤ 0 ∨ thetaStep ≤ 0 ∨ voteThreshold < 1 ∨ m.W * m.H = 0 then
    Except.error DetectError.invalidParameter
  else
    Except.ok (scanCells m.W m.H rho thetaStep voteThreshold minLineLength maxLineGap
      (sortDesc
        (cellVotes m.W m.H rho thetaStep (shuffle rand pos (maskPixels m)))
        (((List.range (numAngles thetaStep)).product
          (List.range (numBuckets m.W m.H rho)))))
      (shuffle rand pos (maskPixels m)))

/-- The detector entry point, starting the injected random stream at
position 0. -/
noncomputable def detect (rand : Nat → Nat) (m : EdgeMask) (rho thetaStep : ℝ)
    (voteThreshold minLineLength maxLineGap : Nat) :
    Except DetectError (List LineSegment) :=
  detectFrom rand 0 m rho thetaStep voteThreshold minLineLength maxLineGap

/-- The externally visible mutable state threaded through an invocation:
the edge mask handed in by the caller and the position in the injected
random stream.  The accumulator is not part of this state: it is
constructed fresh inside each invocation and discarded. -/
structure DetectState where
  mask : EdgeMask
  randPos : Nat

/-- A stateful run of the detector: it reads the mask from the state,
consumes one random draw per sampled pixel (advancing the stream
position), and returns the segments; nothing else of the state changes. -/
noncomputable def detectRun (rand : Nat → Nat) (rho thetaStep : ℝ)
    (voteThreshold minLineLength maxLineGap : Nat) (st : DetectState) :
    DetectState × Except DetectError (List LineSegment) :=
  (⟨st.mask, st.randPos + (maskPixels st.mask).length⟩,
    detectFrom rand st.randPos st.mask rho thetaStep voteThreshold minLineLength maxLineGap)

/-- Euclidean length of a detected segment. -/
noncomputable def segLength (s : LineSegment) : ℝ :=
  Real.sqrt (((s.1.1 : ℝ) - (s.2.1 : ℝ)) ^ 2 + ((s.1.2 : ℝ) - (s.2.2 : ℝ)) ^ 2)

end Hough

namespace Notebook

/-- An RGB image: a colour per pixel coordinate.  Channel values are
rationals so the weighted blend of `cv2.addWeighted` is exact. -/
abbrev Img := Nat → Nat → ℚ × ℚ × ℚ

/-- A single-channel (grayscale) image, as produced by `cv2.Canny` and the
region mask. -/
abbrev Gray := Nat → Nat → ℚ

/-- A detected segment as the notebook receives it: `(x1, y1, x2, y2)`. -/
abbrev PyLine := Int × Int × Int × Int

/-- Whether pixel `(x, y)` lies on the thick rasterized segment from `p` to
`q` (a simple model of the external `cv2.line` rasterization: inside the
thickness-padded bounding box and within distance `t` of the infinite
line). -/
def onSeg (p q : Int × Int) (t : Nat) (x y : Int) : Bool :=
  decide (min p.1 q.1 - t ≤ x ∧ x ≤ max p.1 q.1 + t ∧
    min p.2 q.2 - t ≤ y ∧ y ≤ max p.2 q.2 + t ∧
    ((q.1 - p.1) * (y - p.2) - (q.2 - p.2) * (x - p.1)) ^ 2 ≤
      (t : Int) ^ 2 * ((q.1 - p.1) ^ 2 + (q.2 - p.2) ^ 2))

/-- Model of the external `cv2.line` call: returns the image with the
segment's pixels set to `color`, every other pixel unchanged. -/
def cv2_line (img : Img) (p q : Int × Int) (color : ℚ × ℚ × ℚ) (t : Nat) : Img :=
  fun x y => if onSeg p q t (x : Int) (y : Int) then color else img x y

/-- Model of the external `cv2.addWeighted` call: the pointwise blend
`α·a + β·b + γ`, producing a fresh image. -/
def addWeighted (a : Img) (alpha : ℚ) (b : Img) (beta : ℚ) (gamma : ℚ) : Img :=
  fun x y =>
    (alpha * (a x y).1 + beta * (b x y).1 + gamma,
     alpha * (a x y).2.1 + beta * (b x y).2.1 + gamma,
     alpha * (a x y).2.2 + beta * (b x y).2.2 + gamma)

/-- The named arrays alive in the notebook cell when the Hough-and-draw
stage starts: the original image, the Canny edge map, and the region-masked
edge map. -/
structure PipeState where
  image : Img
  edges : Gray
  masked_edges : Gray

/-- A Python exception raised by the notebook cell. -/
inductive PyErr where
  | typeError : PyErr
deriving DecidableEq

/-- The notebook's Hough-and-draw tail (source cell, lines 103–119),
embedded statement by statement: `line_image = np.copy(image)*0` creates a
fresh blank; `lines = cv2.HoughLinesP(...)` is `linesOpt` here, `none` when
the library found no segments; the unconditional `for line in lines` loop
iterates `lines` — iterating `None` raises a `TypeError` — drawing each
segment into `line_image` with `cv2.line(line_image, (x1,y1), (x2,y2),
(255,0,0), 10)`; `color_edges = np.dstack((edges, edges, edges))`; finally
`lines_edges = cv2.addWeighted(color_edges, 0.8, line_image, 1, 0)`.  The
result is the surviving state together with `line_image` and
`lines_edges`. -/
def houghDrawStage (s : PipeState) (linesOpt : Option (List PyLine)) :
    Except PyErr (PipeState × Img × Img) :=
  match linesOpt with
  | none => Except.error PyErr.typeError
  | some lines =>
    Except.ok (s,
      lines.foldl
        (fun im l => cv2_line im (l.1, l.2.1) (l.2.2.1, l.2.2.2) (255, 0, 0) 10)
        (fun _ _ => (0, 0, 0)),
      addWeighted (fun x y => (s.edges x y, s.edges x y, s.edges x y)) (4 / 5)
        (lines.foldl
          (fun im l => cv2_line im (l.1, l.2.1) (l.2.2.1, l.2.2.2) (255, 0, 0) 10)
          (fun _ _ => (0, 0, 0))) 1 0)

end Notebook

namespace Hough

/-- A trivial injected random source (always draws 0), giving the identity
sampling order. -/
def rand0 : Nat → Nat := fun _ => 0

/-- A 1×1 mask with no edge pixels: positive area, empty pixel list. -/
def blankMask : EdgeMask := ⟨1, 1, fun _ _ => false⟩

/-- The spec's 20×20 scenario mask: edge pixels exactly on the diagonal
from (0,0) to (19,19). -/
def diagMask : EdgeMask := ⟨20, 20, fun x y => x == y⟩

/-- A 5×5 mask whose edge pixels form the full vertical line `x = 2`. -/
def vlineMask : EdgeMask := ⟨5, 5, fun x _ => x == 2⟩

/-- A 5×5 mask whose edge pixels are two collinear vertical runs on
`x = 2`: `y ∈ {0,1}` and `y ∈ {3,4}`, separated by a gap at `y = 2`. -/
def vgapMask : EdgeMask :=
  ⟨5, 5, fun x y => x == 2 && (y == 0 || y == 1 || y == 3 || y == 4)⟩

end Hough

namespace Notebook

/-- A concrete pipeline state (all-black arrays) used to instantiate frame
theorems. -/
def pipeS0 : PipeState := ⟨fun _ _ => (0, 0, 0), fun _ _ => 0, fun _ _ => 0⟩

end Notebook

namespace Hough

/-- Every element produced by the shuffle comes from the input list. -/
theorem shuffleFuel_subset (rand : Nat → Nat) :
    ∀ (fuel pos : Nat) (l : List (Nat × Nat)) (p : Nat × Nat),
      p ∈ shuffleFuel rand pos fuel l → p ∈ l := by
  intro fuel
  induction fuel with
  | zero => intro pos l p h; simp [shuffleFuel] at h
  | succ n ih =>
    intro pos l p h
    rw [shuffleFuel] at h
    by_cases he : l.isEmpty
    · rw [if_pos he] at h; simp at h
    · rw [if_neg he] at h
      rcases List.mem_cons.mp h with h1 | h2
      · have hlen : 0 < l.length := by
          cases l with
          | nil => simp at he
          | cons a t => simp
        have hlt : rand pos % l.length < l.length := Nat.mod_lt _ hlen
        rw [h1, List.getD_eq_getElem l (0, 0) hlt]
        exact List.getElem_mem hlt
      · exact (List.eraseIdx_sublist l (rand pos % l.length)).subset (ih _ _ _ h2)

/-- Membership form of `shuffleFuel_subset` for the top-level shuffle. -/
theorem shuffle_subset (rand : Nat → Nat) (pos : Nat) (l : List (Nat × Nat))
    (p : Nat × Nat) (h : p ∈ shuffle rand pos l) : p ∈ l :=
  shuffleFuel_subset rand l.length pos l p h

/-- The shuffle emits at most `fuel` elements. -/
theorem shuffleFuel_length_le (rand : Nat → Nat) :
    ∀ (fuel pos : Nat) (l : List (Nat × Nat)),
      (shuffleFuel rand pos fuel l).length ≤ fuel := by
  intro fuel
  induction fuel with
  | zero => intro pos l; simp [shuffleFuel]
  | succ n ih =>
    intro pos l
    rw [shuffleFuel]
    by_cases he : l.isEmpty
    · rw [if_pos he]; simp
    · rw [if_neg he]
      simpa using Nat.succ_le_succ (ih (pos + 1) (l.eraseIdx (rand pos % l.length)))

/-- The sampled pixel list is no longer than the pixel list itself. -/
theorem shuffle_length_le (rand : Nat → Nat) (pos : Nat) (l : List (Nat × Nat)) :
    (shuffle rand pos l).length ≤ l.length :=
  shuffleFuel_length_le rand l.length pos l

/-- Shuffling the empty list gives the empty list. -/
theorem shuffle_nil (rand : Nat → Nat) (pos : Nat) : shuffle rand pos [] = [] := rfl

/-- Every enumerated edge pixel lies inside the mask's grid. -/
theorem maskPixels_bounds (m : EdgeMask) (p : Nat × Nat) (h : p ∈ maskPixels m) :
    p.1 < m.W ∧ p.2 < m.H := by
  have h1 := (List.mem_filter.mp h).1
  cases p with
  | mk x y =>
    have h2 := List.pair_mem_product.mp h1
    exact ⟨List.mem_range.mp h2.1, List.mem_range.mp h2.2⟩

/-- Insertion preserves the multiset of elements. -/
theorem insertKey_perm (key : Nat × Nat → ℝ) (a : Nat × Nat) :
    ∀ l : List (Nat × Nat), List.Perm (insertKey key a l) (a :: l) := by
  intro l
  induction l with
  | nil => rfl
  | cons b t ih =>
    rw [insertKey]
    by_cases h : key a ≤ key b
    · rw [if_pos h]
    · rw [if_neg h]
      exact (ih.cons b).trans (List.Perm.swap a b t)

/-- The projection sort permutes its input. -/
theorem sortKey_perm (key : Nat × Nat → ℝ) :
    ∀ l : List (Nat × Nat), List.Perm (sortKey key l) l := by
  intro l
  induction l with
  | nil => rfl
  | cons a t ih =>
    rw [sortKey]
    exact (insertKey_perm key a (sortKey key t)).trans (ih.cons a)

/-- The gap splitting of a nonempty list starts with a run led by the
head. -/
theorem splitRuns_cons_shape (key : Nat × Nat → ℝ) (g : ℝ) :
    ∀ (l : List (Nat × Nat)) (a : Nat × Nat),
      ∃ t rs, splitRuns key g (a :: l) = (a :: t) :: rs := by
  intro l
  induction l with
  | nil => intro a; exact ⟨[], [], rfl⟩
  | cons b t ih =>
    intro a
    obtain ⟨t', rs', h'⟩ := ih b
    rw [splitRuns]
    by_cases h : key b - key a ≤ g
    · rw [if_pos h, h']
      exact ⟨b :: t', rs', rfl⟩
    · rw [if_neg h]
      exact ⟨[], splitRuns key g (b :: t), rfl⟩

/-- Gap splitting partitions the list: flattening the runs restores it. -/
theorem splitRuns_flatten (key : Nat × Nat → ℝ) (g : ℝ) :
    ∀ l : List (Nat × Nat), (splitRuns key g l).flatten = l := by
  intro l
  induction l with
  | nil => rfl
  | cons a t ih =>
    cases t with
    | nil => rfl
    | cons b t' =>
      rw [splitRuns]
      by_cases h : key b - key a ≤ g
      · rw [if_pos h]
        obtain ⟨u, rs, hshape⟩ := splitRuns_cons_shape key g t' b
        rw [hshape]
        rw [hshape] at ih
        have ih' : u ++ rs.flatten = t' := by simpa using ih
        simpa using ih'
      · rw [if_neg h]
        simp [ih]

/-- Elements of a run of the gap splitting come from the split list. -/
theorem mem_of_mem_splitRuns (key : Nat × Nat → ℝ) (g : ℝ) (l run : List (Nat × Nat))
    (hr : run ∈ splitRuns key g l) (x : Nat × Nat) (hx : x ∈ run) : x ∈ l := by
  rw [← splitRuns_flatten key g l]
  exact List.mem_flatten.mpr ⟨run, hr, hx⟩

/-- The last element of a list is a member of it. -/
theorem mem_of_getLast?_eq (l : List (Nat × Nat)) (a : Nat × Nat)
    (h : l.getLast? = some a) : a ∈ l := by
  induction l with
  | nil => simp at h
  | cons b t ih =>
    cases t with
    | nil =>
      simp only [List.getLast?_singleton, Option.some.injEq] at h
      simp [h]
    | cons c t' =>
      rw [List.getLast?_cons_cons] at h
      exact List.mem_cons_of_mem b (ih h)

/-- An emitted segment's endpoints are members of the extracted cell, and
its projected span reaches the minimum line length. -/
theorem extractFrom_spec (thetaStep : ℝ) (mll mlg k : Nat)
    (members : List (Nat × Nat)) (s : LineSegment)
    (h : s ∈ extractFrom thetaStep mll mlg k members) :
    s.1 ∈ members ∧ s.2 ∈ members ∧
      (mll : ℝ) ≤ projOf thetaStep k s.2 - projOf thetaStep k s.1 := by
  obtain ⟨run, hrun, hf⟩ := List.mem_filterMap.mp h
  rw [runSeg] at hf
  cases hh : run.head? with
  | none => rw [hh] at hf; simp at hf
  | some a =>
    cases hl : run.getLast? with
    | none => rw [hh, hl] at hf; simp at hf
    | some b =>
      rw [hh, hl] at hf
      dsimp only at hf
      by_cases hspan : (mll : ℝ) ≤ projOf thetaStep k b - projOf thetaStep k a
      · rw [if_pos hspan] at hf
        have hs : s = (a, b) := by
          cases hf; rfl
        subst hs
        have ha : a ∈ run := by
          cases run with
          | nil => simp at hh
          | cons x xs =>
            simp only [List.head?_cons, Option.some.injEq] at hh
            simp [← hh]
        have hb : b ∈ run := mem_of_getLast?_eq run b hl
        have hmem : ∀ x ∈ run, x ∈ members := by
          intro x hx
          exact ((sortKey_perm (projOf thetaStep k) members).mem_iff).mp
            (mem_of_mem_splitRuns _ _ _ _ hrun x hx)
        exact ⟨hmem a ha, hmem b hb, hspan⟩
      · rw [if_neg hspan] at hf
        simp at hf

/-- Each segment produced by the cell scan originates from an accumulator
cell whose vote count over the full sampled pixel list reaches the
threshold; the segment's endpoints are members of that cell and its
projected span reaches the minimum length. -/
theorem scanCells_spec (W H : Nat) (rho thetaStep : ℝ) (vt mll mlg : Nat)
    (P : List (Nat × Nat)) :
    ∀ (L R : List (Nat × Nat)), R.Sublist P →
      ∀ s ∈ scanCells W H rho thetaStep vt mll mlg L R,
        ∃ c : Nat × Nat, vt ≤ cellVotes W H rho thetaStep P c ∧
          s.1 ∈ cellMembers W H rho thetaStep P c ∧
          s.2 ∈ cellMembers W H rho thetaStep P c ∧
          (mll : ℝ) ≤ projOf thetaStep c.1 s.2 - projOf thetaStep c.1 s.1 := by
  intro L
  induction L with
  | nil => intro R _ s hs; simp [scanCells] at hs
  | cons c cs ih =>
    intro R hR s hs
    rw [scanCells] at hs
    by_cases hfire : vt ≤ (R.filter
        (fun p => bucketOf W H rho thetaStep c.1 p = c.2)).length
    · rw [if_pos hfire] at hs
      rcases List.mem_append.mp hs with h1 | h2
      · have hsub : (R.filter (fun p => bucketOf W H rho thetaStep c.1 p = c.2)).Sublist
            (P.filter (fun p => bucketOf W H rho thetaStep c.1 p = c.2)) :=
          hR.filter _
        obtain ⟨he1, he2, he3⟩ := extractFrom_spec thetaStep mll mlg c.1 _ s h1
        refine ⟨c, le_trans hfire hsub.length_le, hsub.subset he1, hsub.subset he2, he3⟩
      · exact ih _ ((List.filter_sublist R).trans hR) s h2
    · rw [if_neg hfire] at hs
      exact ih _ hR s hs

/-- When every scanned accumulator cell is below threshold, the scan
emits nothing. -/
theorem scanCells_low (W H : Nat) (rho thetaStep : ℝ) (vt mll mlg : Nat)
    (P : List (Nat × Nat)) :
    ∀ (L R : List (Nat × Nat)), R.Sublist P →
      (∀ c ∈ L, cellVotes W H rho thetaStep P c < vt) →
      scanCells W H rho thetaStep vt mll mlg L R = [] := by
  intro L
  induction L with
  | nil => intro R _ _; rw [scanCells]
  | cons c cs ih =>
    intro R hR hlow
    rw [scanCells]
    have hle : (R.filter (fun p => bucketOf W H rho thetaStep c.1 p = c.2)).length ≤
        cellVotes W H rho thetaStep P c :=
      (hR.filter _).length_le
    have hc := hlow c (List.mem_cons_self c cs)
    rw [if_neg (by omega)]
    exact ih R hR (fun d hd => hlow d (List.mem_cons_of_mem c hd))

/-- The head of an insertion is either the inserted element or the head of
the original list. -/
theorem insertKey_head_cases (key : Nat × Nat → ℝ) (a : Nat × Nat)
    (l : List (Nat × Nat)) :
    (insertKey key a l).head? = some a ∨ (insertKey key a l).head? = l.head? := by
  cases l with
  | nil => exact Or.inl rfl
  | cons b t =>
    rw [insertKey]
    by_cases h : key a ≤ key b
    · rw [if_pos h]; exact Or.inl rfl
    · rw [if_neg h]; exact Or.inr rfl

/-- Inserting into a key-sorted list keeps it key-sorted. -/
theorem insertKey_chain (key : Nat × Nat → ℝ) (a : Nat × Nat) :
    ∀ l : List (Nat × Nat), List.Chain' (fun x y => key x ≤ key y) l →
      List.Chain' (fun x y => key x ≤ key y) (insertKey key a l) := by
  intro l
  induction l with
  | nil => intro _; simp [insertKey]
  | cons b t ih =>
    intro hch
    rw [insertKey]
    by_cases h : key a ≤ key b
    · rw [if_pos h]
      exact List.chain'_cons.mpr ⟨h, hch⟩
    · rw [if_neg h]
      have hba : key b ≤ key a := le_of_not_le h
      refine List.chain'_cons'.mpr ⟨?_, ih hch.tail⟩
      intro c hc
      rcases insertKey_head_cases key a t with hh | hh
      · rw [hh] at hc
        cases hc
        exact hba
      · rw [hh] at hc
        exact (List.chain'_cons'.mp hch).1 c hc

/-- The projection sort produces a key-sorted list. -/
theorem sortKey_chain (key : Nat × Nat → ℝ) :
    ∀ l : List (Nat × Nat),
      List.Chain' (fun x y => key x ≤ key y) (sortKey key l) := by
  intro l
  induction l with
  | nil => simp [sortKey]
  | cons a t ih =>
    rw [sortKey]
    exact insertKey_chain key a (sortKey key t) ih

/-- Over a key-sorted list split with `maxLineGap = 0`, every run's last
key does not exceed its first key (all its keys are equal). -/
theorem splitRuns_gap0_span (key : Nat × Nat → ℝ) :
    ∀ l : List (Nat × Nat), List.Chain' (fun x y => key x ≤ key y) l →
      ∀ run ∈ splitRuns key 0 l, ∀ a b : Nat × Nat,
        run.head? = some a → run.getLast? = some b → key b ≤ key a := by
  intro l
  induction l with
  | nil => intro _ run hr; simp [splitRuns] at hr
  | cons x t ih =>
    intro hch run hr a b hha hlb
    cases t with
    | nil =>
      rw [splitRuns] at hr
      simp only [List.mem_singleton] at hr
      subst hr
      simp only [List.head?_cons, Option.some.injEq] at hha
      simp only [List.getLast?_singleton, Option.some.injEq] at hlb
      rw [← hha, ← hlb]
    | cons y t' =>
      have hxy : key x ≤ key y := (List.chain'_cons.mp hch).1
      have hcht : List.Chain' (fun u v => key u ≤ key v) (y :: t') :=
        (List.chain'_cons.mp hch).2
      rw [splitRuns] at hr
      by_cases hg : key y - key x ≤ 0
      · rw [if_pos hg] at hr
        obtain ⟨u, rs, hshape⟩ := splitRuns_cons_shape key 0 t' y
        rw [hshape] at hr
        rcases List.mem_cons.mp hr with h1 | h2
        · subst h1
          simp only [List.head?_cons, Option.some.injEq] at hha
          have hyx : key y ≤ key x := by linarith
          have hlast : (x :: y :: u).getLast? = (y :: u).getLast? :=
            List.getLast?_cons_cons
          rw [hlast] at hlb
          have hyu : key b ≤ key y :=
            ih hcht (y :: u) (by rw [hshape]; exact List.mem_cons_self _ _) y b rfl hlb
          rw [← hha]
          linarith
        · exact ih hcht run (by rw [hshape]; exact List.mem_cons_of_mem _ h2) a b hha hlb
      · rw [if_neg hg] at hr
        rcases List.mem_cons.mp hr with h1 | h2
        · subst h1
          simp only [List.head?_cons, Option.some.injEq] at hha
          simp only [List.getLast?_singleton, Option.some.injEq] at hlb
          rw [← hha, ← hlb]
        · exact ih hcht run h2 a b hha hlb

/-- With `maxLineGap = 0` and a positive `minLineLength`, extraction from
any cell emits nothing: every run's projected span is zero. -/
theorem extractFrom_gap0 (thetaStep : ℝ) (mll : Nat) (hmll : 1 ≤ mll) (k : Nat)
    (members : List (Nat × Nat)) :
    extractFrom thetaStep mll 0 k members = [] := by
  rw [extractFrom]
  rw [List.filterMap_eq_nil_iff]
  intro run hrun
  rw [runSeg]
  cases hha : run.head? with
  | none => simp
  | some a =>
    cases hlb : run.getLast? with
    | none => simp
    | some b =>
      dsimp only
      have hch := sortKey_chain (projOf thetaStep k) members
      have hba : projOf thetaStep k b ≤ projOf thetaStep k a :=
        splitRuns_gap0_span (projOf thetaStep k) _ hch run
          (by simpa using hrun) a b hha hlb
      have h1 : (1 : ℝ) ≤ (mll : ℝ) := by exact_mod_cast hmll
      rw [if_neg (by intro hcon; linarith)]

/-- With `maxLineGap = 0` and a positive `minLineLength`, the whole scan
emits nothing, whatever the accumulator looks like. -/
theorem scanCells_gap0 (W H : Nat) (rho thetaStep : ℝ) (vt mll : Nat)
    (hmll : 1 ≤ mll) :
    ∀ (L R : List (Nat × Nat)),
      scanCells W H rho thetaStep vt mll 0 L R = [] := by
  intro L
  induction L with
  | nil => intro R; rw [scanCells]
  | cons c cs ih =>
    intro R
    rw [scanCells]
    by_cases hfire : vt ≤ (R.filter
        (fun p => bucketOf W H rho thetaStep c.1 p = c.2)).length
    · rw [if_pos hfire, extractFrom_gap0 thetaStep mll hmll, List.nil_append]
      exact ih _
    · rw [if_neg hfire]
      exact ih _

/-- C2: `detect` fails with `InvalidParameter` whenever `rho ≤ 0`, or
`thetaStep ≤ 0`, or `voteThreshold < 1`, or the edge mask has zero area;
the guard is the first step of the computation and no partial result is
returned (the error constructor carries none). -/
theorem detect_invalid_parameter (rand : Nat → Nat) (m : EdgeMask) (rho thetaStep : ℝ)
    (vt mll mlg : Nat)
    (h : rho ≤ 0 ∨ thetaStep ≤ 0 ∨ vt < 1 ∨ m.W * m.H = 0) :
    detect rand m rho thetaStep vt mll mlg = Except.error DetectError.invalidParameter := by
  unfold detect detectFrom
  rw [if_pos h]

/-- Witness for C2: a concrete call with `rho = −1` is rejected. -/
theorem detect_invalid_parameter_witness :
    detect rand0 blankMask (-1) 1 1 10 5 = Except.error DetectError.invalidParameter :=
  detect_invalid_parameter rand0 blankMask (-1) 1 1 10 5 (Or.inl (by norm_num))

/-- On valid parameters, `detect` unfolds to the accumulator scan over the
sampled pixels. -/
theorem detect_ok (rand : Nat → Nat) (m : EdgeMask) (rho thetaStep : ℝ)
    (vt mll mlg : Nat)
    (hg : ¬(rho ≤ 0 ∨ thetaStep ≤ 0 ∨ vt < 1 ∨ m.W * m.H = 0)) :
    detect rand m rho thetaStep vt mll mlg =
      Except.ok (scanCells m.W m.H rho thetaStep vt mll mlg
        (sortDesc
          (cellVotes m.W m.H rho thetaStep (shuffle rand 0 (maskPixels m)))
          (((List.range (numAngles thetaStep)).product
            (List.range (numBuckets m.W m.H rho)))))
        (shuffle rand 0 (maskPixels m))) := by
  unfold detect detectFrom
  rw [if_neg hg]

/-- A mask without edge pixels yields the empty segment list on valid
parameters. -/
theorem detect_no_edge (rand : Nat → Nat) (m : EdgeMask) (rho thetaStep : ℝ)
    (vt mll mlg : Nat)
    (hg : ¬(rho ≤ 0 ∨ thetaStep ≤ 0 ∨ vt < 1 ∨ m.W * m.H = 0))
    (hpix : maskPixels m = []) :
    detect rand m rho thetaStep vt mll mlg = Except.ok [] := by
  rw [detect_ok rand m rho thetaStep vt mll mlg hg]
  have hvt : 1 ≤ vt := by
    by_contra hlt
    exact hg (Or.inr (Or.inr (Or.inl (by omega))))
  have hlow : ∀ c : Nat × Nat,
      cellVotes m.W m.H rho thetaStep (shuffle rand 0 (maskPixels m)) c < vt := by
    intro c
    have : (shuffle rand 0 (maskPixels m)) = [] := by rw [hpix]; rfl
    rw [cellVotes, cellMembers, this]
    simpa using hvt
  rw [scanCells_low m.W m.H rho thetaStep vt mll mlg _ _ _ (List.Sublist.refl _)
    (fun c _ => hlow c)]

/-- With `maxLineGap = 0` and a positive `minLineLength`, a valid call
returns the empty sequence: under the spec's projection-gap splitting rule,
consecutive distinct projected positions always differ by more than zero,
so every run collapses to span zero and is discarded. -/
theorem detect_gap0 (rand : Nat → Nat) (m : EdgeMask) (rho thetaStep : ℝ)
    (vt mll : Nat)
    (hg : ¬(rho ≤ 0 ∨ thetaStep ≤ 0 ∨ vt < 1 ∨ m.W * m.H = 0)) (hmll : 1 ≤ mll) :
    detect rand m rho thetaStep vt mll 0 = Except.ok [] := by
  rw [detect_ok rand m rho thetaStep vt mll 0 hg]
  rw [scanCells_gap0 m.W m.H rho thetaStep vt mll hmll]

/-- Counterexample to C6's scenario: on the 20×20 diagonal mask with
`rho = 1`, `thetaStep = π/180`, `voteThreshold = 10`, `minLineLength = 15`
and `maxLineGap = 0`, the detector defined by the spec's own algorithm
returns the empty sequence — not one segment with endpoints (0,0) and
(19,19): adjacent diagonal pixels project √2 apart along the line
direction, which exceeds the zero gap allowance, so every run is a single
projection class of span 0 < 15. -/
theorem detect_diag_scenario_refuted :
    detect rand0 diagMask 1 (Real.pi / 180) 10 15 0 = Except.ok [] ∧
    ∀ s : LineSegment,
      detect rand0 diagMask 1 (Real.pi / 180) 10 15 0 ≠ Except.ok [s] := by
  have hmain : detect rand0 diagMask 1 (Real.pi / 180) 10 15 0 = Except.ok [] := by
    refine detect_gap0 rand0 diagMask 1 (Real.pi / 180) 10 15 ?_ (by norm_num)
    push_neg
    refine ⟨by norm_num, by positivity, by norm_num, by norm_num [diagMask]⟩
  refine ⟨hmain, ?_⟩
  intro s hcontra
  rw [hmain] at hcontra
  simp at hcontra

/-- C3: for every valid parameter set, when no accumulator cell reaches
the vote threshold, `detect` returns the empty sequence and raises no
error — a normal no-lines-found outcome distinguishable from a parameter
error. -/
theorem detect_below_threshold_empty (rand : Nat → Nat) (m : EdgeMask)
    (rho thetaStep : ℝ) (vt mll mlg : Nat)
    (hrho : 0 < rho) (hts : 0 < thetaStep) (hvt : 1 ≤ vt) (harea : 0 < m.W * m.H)
    (hlow : ∀ c : Nat × Nat,
      cellVotes m.W m.H rho thetaStep (shuffle rand 0 (maskPixels m)) c < vt) :
    detect rand m rho thetaStep vt mll mlg = Except.ok [] ∧
    ∀ e, detect rand m rho thetaStep vt mll mlg ≠ Except.error e := by
  have hg : ¬(rho ≤ 0 ∨ thetaStep ≤ 0 ∨ vt < 1 ∨ m.W * m.H = 0) := by
    push_neg
    exact ⟨by linarith, by linarith, by omega, by omega⟩
  have hmain : detect rand m rho thetaStep vt mll mlg = Except.ok [] := by
    rw [detect_ok rand m rho thetaStep vt mll mlg hg]
    rw [scanCells_low m.W m.H rho thetaStep vt mll mlg _ _ _ (List.Sublist.refl _)
      (fun c _ => hlow c)]
  refine ⟨hmain, ?_⟩
  intro e
  rw [hmain]
  exact fun hc => Except.noConfusion hc

/-- Witness for C3: the spec's 20×20 diagonal-mask scenario with
`voteThreshold = 25` (exceeding the 20 available votes) returns the empty
sequence and no error. -/
theorem detect_below_threshold_empty_witness :
    detect rand0 diagMask 1 (Real.pi / 180) 25 15 0 = Except.ok [] ∧
    ∀ e, detect rand0 diagMask 1 (Real.pi / 180) 25 15 0 ≠ Except.error e := by
  refine detect_below_threshold_empty rand0 diagMask 1 (Real.pi / 180) 25 15 0
    (by norm_num) (by positivity) (by norm_num) (by norm_num [diagMask]) ?_
  intro c
  have h1 : cellVotes diagMask.W diagMask.H 1 (Real.pi / 180)
      (shuffle rand0 0 (maskPixels diagMask)) c ≤
      (shuffle rand0 0 (maskPixels diagMask)).length :=
    List.length_filter_le _ _
  have h2 : (shuffle rand0 0 (maskPixels diagMask)).length ≤
      (maskPixels diagMask).length :=
    shuffle_length_le rand0 0 (maskPixels diagMask)
  have h3 : (maskPixels diagMask).length = 20 := by decide
  omega

/-- C1: every segment returned by `detect` has both endpoints inside the
edge mask's bounds `[0,W) × [0,H)` (coordinates are naturals, so the lower
bound is inherent). -/
theorem detect_endpoints_in_bounds (rand : Nat → Nat) (m : EdgeMask)
    (rho thetaStep : ℝ) (vt mll mlg : Nat) (segs : List LineSegment)
    (h : detect rand m rho thetaStep vt mll mlg = Except.ok segs) :
    ∀ s ∈ segs, s.1.1 < m.W ∧ s.1.2 < m.H ∧ s.2.1 < m.W ∧ s.2.2 < m.H := by
  intro s hs
  by_cases hg : rho ≤ 0 ∨ thetaStep ≤ 0 ∨ vt < 1 ∨ m.W * m.H = 0
  · rw [detect_invalid_parameter rand m rho thetaStep vt mll mlg hg] at h
    exact absurd h (fun hc => Except.noConfusion hc)
  · rw [detect_ok rand m rho thetaStep vt mll mlg hg] at h
    have hsegs := (Except.ok.injEq _ _).mp h
    rw [← hsegs] at hs
    obtain ⟨c, _, h1, h2, _⟩ :=
      scanCells_spec m.W m.H rho thetaStep vt mll mlg
        (shuffle rand 0 (maskPixels m)) _ _ (List.Sublist.refl _) s hs
    have hp1 : s.1 ∈ maskPixels m :=
      shuffle_subset rand 0 (maskPixels m) s.1 (List.mem_filter.mp h1).1
    have hp2 : s.2 ∈ maskPixels m :=
      shuffle_subset rand 0 (maskPixels m) s.2 (List.mem_filter.mp h2).1
    obtain ⟨b1, b2⟩ := maskPixels_bounds m s.1 hp1
    obtain ⟨b3, b4⟩ := maskPixels_bounds m s.2 hp2
    exact ⟨b1, b2, b3, b4⟩

/-- C4: every segment returned by `detect` has Euclidean length at least
`minLineLength`, and originates from an accumulator cell whose vote count
reaches `voteThreshold` (its endpoints are members of that cell); runs
whose merged span falls short of `minLineLength` are discarded, so no such
segment appears in the output. -/
theorem detect_min_length_and_votes (rand : Nat → Nat) (m : EdgeMask)
    (rho thetaStep : ℝ) (vt mll mlg : Nat) (segs : List LineSegment)
    (h : detect rand m rho thetaStep vt mll mlg = Except.ok segs) :
    ∀ s ∈ segs, (mll : ℝ) ≤ segLength s ∧
      ∃ c : Nat × Nat,
        vt ≤ cellVotes m.W m.H rho thetaStep (shuffle rand 0 (maskPixels m)) c ∧
        s.1 ∈ cellMembers m.W m.H rho thetaStep (shuffle rand 0 (maskPixels m)) c ∧
        s.2 ∈ cellMembers m.W m.H rho thetaStep (shuffle rand 0 (maskPixels m)) c := by
  intro s hs
  by_cases hg : rho ≤ 0 ∨ thetaStep ≤ 0 ∨ vt < 1 ∨ m.W * m.H = 0
  · rw [detect_invalid_parameter rand m rho thetaStep vt mll mlg hg] at h
    exact absurd h (fun hc => Except.noConfusion hc)
  · rw [detect_ok rand m rho thetaStep vt mll mlg hg] at h
    have hsegs := (Except.ok.injEq _ _).mp h
    rw [← hsegs] at hs
    obtain ⟨c, hvotes, h1, h2, hspan⟩ :=
      scanCells_spec m.W m.H rho thetaStep vt mll mlg
        (shuffle rand 0 (maskPixels m)) _ _ (List.Sublist.refl _) s hs
    refine ⟨?_, c, hvotes, h1, h2⟩
    set θ := thetaOf thetaStep c.1 with hθ
    have hspan' : (mll : ℝ) ≤
        ((s.1.1 : ℝ) - (s.2.1 : ℝ)) * Real.sin θ +
          ((s.2.2 : ℝ) - (s.1.2 : ℝ)) * Real.cos θ := by
      have : projOf thetaStep c.1 s.2 - projOf thetaStep c.1 s.1 =
          ((s.1.1 : ℝ) - (s.2.1 : ℝ)) * Real.sin θ +
            ((s.2.2 : ℝ) - (s.1.2 : ℝ)) * Real.cos θ := by
        rw [projOf, projOf, ← hθ]
        ring
      rw [← this]
      exact hspan
    set a := (s.1.1 : ℝ) - (s.2.1 : ℝ) with ha
    set b := (s.1.2 : ℝ) - (s.2.2 : ℝ) with hb
    have hspan2 : (mll : ℝ) ≤ a * Real.sin θ - b * Real.cos θ := by
      have : ((s.2.2 : ℝ) - (s.1.2 : ℝ)) = -b := by rw [hb]; ring
      calc (mll : ℝ) ≤ a * Real.sin θ + ((s.2.2 : ℝ) - (s.1.2 : ℝ)) * Real.cos θ := hspan'
        _ = a * Real.sin θ - b * Real.cos θ := by rw [this]; ring
    have hnn : (0 : ℝ) ≤ a * Real.sin θ - b * Real.cos θ :=
      le_trans (Nat.cast_nonneg mll) hspan2
    have hsq : (a * Real.sin θ - b * Real.cos θ) ^ 2 ≤ a ^ 2 + b ^ 2 := by
      nlinarith [Real.sin_sq_add_cos_sq θ, sq_nonneg (a * Real.cos θ + b * Real.sin θ)]
    have hle : a * Real.sin θ - b * Real.cos θ ≤ segLength s := by
      rw [segLength]
      calc a * Real.sin θ - b * Real.cos θ
          = Real.sqrt ((a * Real.sin θ - b * Real.cos θ) ^ 2) :=
            (Real.sqrt_sq hnn).symm
        _ ≤ Real.sqrt (a ^ 2 + b ^ 2) := Real.sqrt_le_sqrt hsq
    exact le_trans hspan2 hle


/-- Descending insertion preserves the multiset of cells. -/
theorem insertDesc_perm (key : Nat × Nat → Nat) (a : Nat × Nat) :
    ∀ l : List (Nat × Nat), List.Perm (insertDesc key a l) (a :: l) := by
  intro l
  induction l with
  | nil => rfl
  | cons b t ih =>
    rw [insertDesc]
    by_cases h : key b ≤ key a
    · rw [if_pos h]
    · rw [if_neg h]
      exact (ih.cons b).trans (List.Perm.swap a b t)

/-- The descending-vote cell sort permutes the cell list. -/
theorem sortDesc_perm (key : Nat × Nat → Nat) :
    ∀ l : List (Nat × Nat), List.Perm (sortDesc key l) l := by
  intro l
  induction l with
  | nil => rfl
  | cons a t ih =>
    rw [sortDesc]
    exact (insertDesc_perm key a (sortDesc key t)).trans (ih.cons a)

/-- When exactly one scanned cell (appearing once in the scan order)
reaches the threshold, the scan returns precisely that cell's extraction
over the full pixel list. -/
theorem scanCells_unique (W H : Nat) (rho thetaStep : ℝ) (vt mll mlg : Nat)
    (P : List (Nat × Nat)) (c₀ : Nat × Nat)
    (hhot : vt ≤ cellVotes W H rho thetaStep P c₀) :
    ∀ L : List (Nat × Nat), L.count c₀ = 1 →
      (∀ c ∈ L, c ≠ c₀ → cellVotes W H rho thetaStep P c < vt) →
      scanCells W H rho thetaStep vt mll mlg L P =
        extractFrom thetaStep mll mlg c₀.1 (cellMembers W H rho thetaStep P c₀) := by
  intro L
  induction L with
  | nil => intro hcount _; simp at hcount
  | cons c cs ih =>
    intro hcount hlow
    by_cases hc : c = c₀
    · subst hc
      have hcs : cs.count c = 0 := by
        have h1 := List.count_cons_self c cs
        omega
      have hnotin : c ∉ cs := List.count_eq_zero.mp hcs
      rw [scanCells]
      have hhot' : vt ≤ (P.filter
          (fun p => bucketOf W H rho thetaStep c.1 p = c.2)).length := by
        rw [cellVotes, cellMembers] at hhot
        exact hhot
      rw [if_pos hhot']
      have htail : scanCells W H rho thetaStep vt mll mlg cs
          (P.filter (fun p => ¬ bucketOf W H rho thetaStep c.1 p = c.2)) = [] := by
        apply scanCells_low W H rho thetaStep vt mll mlg P cs _ (List.filter_sublist P)
        intro d hd
        exact hlow d (List.mem_cons_of_mem c hd) (fun he => hnotin (he ▸ hd))
      rw [htail, List.append_nil, cellMembers]
    · have hcount' : cs.count c₀ = 1 := by
        rw [List.count_cons] at hcount
        simp only [beq_iff_eq] at hcount
        rw [if_neg hc] at hcount
        omega
      have hlowc := hlow c (List.mem_cons_self c cs) hc
      rw [cellVotes, cellMembers] at hlowc
      rw [scanCells, if_neg (by omega)]
      exact ih hcount' (fun d hd hne => hlow d (List.mem_cons_of_mem c hd) hne)

/-- A nonempty list whose consecutive projected gaps all stay within `g`
forms a single run. -/
theorem splitRuns_single (key : Nat × Nat → ℝ) (g : ℝ) :
    ∀ l : List (Nat × Nat), l ≠ [] →
      List.Chain' (fun x y => key y - key x ≤ g) l →
      splitRuns key g l = [l] := by
  intro l
  induction l with
  | nil => intro h _; exact absurd rfl h
  | cons a t ih =>
    intro _ hch
    cases t with
    | nil => rw [splitRuns]
    | cons b t' =>
      have hab : key b - key a ≤ g := (List.chain'_cons.mp hch).1
      rw [splitRuns, if_pos hab,
        ih (List.cons_ne_nil b t') (List.chain'_cons.mp hch).2]

/-- Gap splitting distributes over an append whose junction gap exceeds
`g`. -/
theorem splitRuns_append (key : Nat × Nat → ℝ) (g : ℝ) :
    ∀ (A B : List (Nat × Nat)) (a₁ b₀ : Nat × Nat),
      A.getLast? = some a₁ → B.head? = some b₀ → g < key b₀ - key a₁ →
      splitRuns key g (A ++ B) = splitRuns key g A ++ splitRuns key g B := by
  intro A
  induction A with
  | nil => intro B a₁ b₀ hA _ _; simp at hA
  | cons x t ih =>
    intro B a₁ b₀ hA hB hgap
    cases t with
    | nil =>
      cases B with
      | nil => simp at hB
      | cons b B' =>
        simp only [List.head?_cons, Option.some.injEq] at hB
        subst hB
        simp only [List.getLast?_singleton, Option.some.injEq] at hA
        subst hA
        have h2 : splitRuns key g (x :: b :: B') =
            [x] :: splitRuns key g (b :: B') := by
          rw [splitRuns, if_neg (by linarith)]
        have h1 : splitRuns key g [x] = [[x]] := by rw [splitRuns]
        have hxb : [x] ++ b :: B' = x :: b :: B' := rfl
        rw [hxb, h2, h1, List.singleton_append]
    | cons y t' =>
      rw [List.getLast?_cons_cons] at hA
      show splitRuns key g (x :: y :: (t' ++ B)) = _
      rw [splitRuns]
      by_cases hxy : key y - key x ≤ g
      · rw [if_pos hxy]
        have hrec : splitRuns key g (y :: (t' ++ B)) =
            splitRuns key g (y :: t') ++ splitRuns key g B := by
          have he : y :: (t' ++ B) = (y :: t') ++ B := rfl
          rw [he]
          exact ih B a₁ b₀ hA hB hgap
        rw [hrec]
        obtain ⟨u, rs, hshape⟩ := splitRuns_cons_shape key g t' y
        rw [hshape]
        have hxA : splitRuns key g (x :: y :: t') = (x :: y :: u) :: rs := by
          rw [splitRuns, if_pos hxy, hshape]
        rw [hxA, List.cons_append, List.cons_append]
      · rw [if_neg hxy]
        have he : y :: (t' ++ B) = (y :: t') ++ B := rfl
        rw [he, ih B a₁ b₀ hA hB hgap]
        have hxA : splitRuns key g (x :: y :: t') = [x] :: splitRuns key g (y :: t') := by
          rw [splitRuns, if_neg hxy]
        rw [hxA, List.cons_append]

/-- A run with known extremal pixels and sufficient span contributes their
segment. -/
theorem runSeg_eq_some (thetaStep : ℝ) (mll k : Nat) (run : List (Nat × Nat))
    (a b : Nat × Nat) (hh : run.head? = some a) (hl : run.getLast? = some b)
    (hsp : (mll : ℝ) ≤ projOf thetaStep k b - projOf thetaStep k a) :
    runSeg thetaStep mll k run = some (a, b) := by
  rw [runSeg, hh, hl]
  dsimp only
  rw [if_pos hsp]

/-- Extraction of a cell whose sorted members form a single gap-compatible
run emits exactly the segment of the extremal members. -/
theorem extractFrom_single (thetaStep : ℝ) (mll mlg k : Nat)
    (members : List (Nat × Nat)) (a₀ b₀ : Nat × Nat)
    (hhead : (sortKey (projOf thetaStep k) members).head? = some a₀)
    (hlast : (sortKey (projOf thetaStep k) members).getLast? = some b₀)
    (hchain : List.Chain'
      (fun x y => projOf thetaStep k y - projOf thetaStep k x ≤ (mlg : ℝ))
      (sortKey (projOf thetaStep k) members))
    (hspan : (mll : ℝ) ≤ projOf thetaStep k b₀ - projOf thetaStep k a₀) :
    extractFrom thetaStep mll mlg k members = [(a₀, b₀)] := by
  have hne : sortKey (projOf thetaStep k) members ≠ [] := by
    intro h; rw [h] at hhead; simp at hhead
  rw [extractFrom, splitRuns_single _ _ _ hne hchain, List.filterMap_cons,
    runSeg_eq_some thetaStep mll k _ a₀ b₀ hhead hlast hspan, List.filterMap_nil]

/-- Extraction of a cell whose sorted members form two gap-compatible runs
separated by a junction gap beyond `maxLineGap` emits exactly the two runs'
extremal segments. -/
theorem extractFrom_two_runs (thetaStep : ℝ) (mll mlg k : Nat)
    (members A B : List (Nat × Nat)) (a₀ a₁ b₀ b₁ : Nat × Nat)
    (hsort : sortKey (projOf thetaStep k) members = A ++ B)
    (hA0 : A.head? = some a₀) (hA1 : A.getLast? = some a₁)
    (hB0 : B.head? = some b₀) (hB1 : B.getLast? = some b₁)
    (hchA : List.Chain'
      (fun x y => projOf thetaStep k y - projOf thetaStep k x ≤ (mlg : ℝ)) A)
    (hchB : List.Chain'
      (fun x y => projOf thetaStep k y - projOf thetaStep k x ≤ (mlg : ℝ)) B)
    (hgap : (mlg : ℝ) < projOf thetaStep k b₀ - projOf thetaStep k a₁)
    (hsp1 : (mll : ℝ) ≤ projOf thetaStep k a₁ - projOf thetaStep k a₀)
    (hsp2 : (mll : ℝ) ≤ projOf thetaStep k b₁ - projOf thetaStep k b₀) :
    extractFrom thetaStep mll mlg k members = [(a₀, a₁), (b₀, b₁)] := by
  have hAne : A ≠ [] := by intro h; rw [h] at hA0; simp at hA0
  have hBne : B ≠ [] := by intro h; rw [h] at hB0; simp at hB0
  rw [extractFrom, hsort, splitRuns_append _ _ A B a₁ b₀ hA1 hB0 hgap,
    splitRuns_single _ _ A hAne hchA, splitRuns_single _ _ B hBne hchB,
    List.singleton_append, List.filterMap_cons,
    runSeg_eq_some thetaStep mll k A a₀ a₁ hA0 hA1 hsp1, List.filterMap_cons,
    runSeg_eq_some thetaStep mll k B b₀ b₁ hB0 hB1 hsp2, List.filterMap_nil]

/-- In a duplicate-free cell list, a member cell is counted exactly
once. -/
theorem count_eq_one_of_nodup_mem (l : List (Nat × Nat)) (a : Nat × Nat)
    (hd : l.Nodup) (hm : a ∈ l) : l.count a = 1 := by
  induction l with
  | nil => simp at hm
  | cons b t ih =>
    rw [List.count_cons]
    simp only [beq_iff_eq]
    rcases List.mem_cons.mp hm with h1 | h2
    · subst h1
      have hnotin : a ∉ t := (List.nodup_cons.mp hd).1
      rw [if_pos rfl]
      have h0 : t.count a = 0 := List.count_eq_zero.mpr hnotin
      omega
    · have hne : a ≠ b := fun he => (List.nodup_cons.mp hd).1 (he ▸ h2)
      rw [if_neg (fun he => hne he.symm), ih (List.nodup_cons.mp hd).2 h2]

/-- When exactly one accumulator cell of the scanned grid reaches the
threshold, a valid `detect` call returns that cell's extraction. -/
theorem detect_unique_cell (rand : Nat → Nat) (m : EdgeMask) (rho thetaStep : ℝ)
    (vt mll mlg : Nat) (k₀ j₀ : Nat)
    (hg : ¬(rho ≤ 0 ∨ thetaStep ≤ 0 ∨ vt < 1 ∨ m.W * m.H = 0))
    (hk : k₀ < numAngles thetaStep) (hj : j₀ < numBuckets m.W m.H rho)
    (hhot : vt ≤ cellVotes m.W m.H rho thetaStep
      (shuffle rand 0 (maskPixels m)) (k₀, j₀))
    (hlow : ∀ c : Nat × Nat, c.1 < numAngles thetaStep →
      c.2 < numBuckets m.W m.H rho → c ≠ (k₀, j₀) →
      cellVotes m.W m.H rho thetaStep (shuffle rand 0 (maskPixels m)) c < vt) :
    detect rand m rho thetaStep vt mll mlg =
      Except.ok (extractFrom thetaStep mll mlg k₀
        (cellMembers m.W m.H rho thetaStep (shuffle rand 0 (maskPixels m)) (k₀, j₀))) := by
  rw [detect_ok rand m rho thetaStep vt mll mlg hg]
  congr 1
  have hnodup : (((List.range (numAngles thetaStep)).product
      (List.range (numBuckets m.W m.H rho)))).Nodup :=
    (List.nodup_range _).product (List.nodup_range _)
  have hmem : (k₀, j₀) ∈ (List.range (numAngles thetaStep)).product
      (List.range (numBuckets m.W m.H rho)) :=
    List.pair_mem_product.mpr ⟨List.mem_range.mpr hk, List.mem_range.mpr hj⟩
  have hperm := sortDesc_perm
    (cellVotes m.W m.H rho thetaStep (shuffle rand 0 (maskPixels m)))
    ((List.range (numAngles thetaStep)).product (List.range (numBuckets m.W m.H rho)))
  have hcount : (sortDesc
      (cellVotes m.W m.H rho thetaStep (shuffle rand 0 (maskPixels m)))
      ((List.range (numAngles thetaStep)).product
        (List.range (numBuckets m.W m.H rho)))).count (k₀, j₀) = 1 := by
    have h1 : (sortDesc
        (cellVotes m.W m.H rho thetaStep (shuffle rand 0 (maskPixels m)))
        (((List.range (numAngles thetaStep)).product
          (List.range (numBuckets m.W m.H rho))))).count (k₀, j₀) =
        (((List.range (numAngles thetaStep)).product
          (List.range (numBuckets m.W m.H rho)))).count (k₀, j₀) :=
      hperm.countP_eq _
    rw [h1]
    exact count_eq_one_of_nodup_mem _ _ hnodup hmem
  have hlowL : ∀ c ∈ sortDesc
      (cellVotes m.W m.H rho thetaStep (shuffle rand 0 (maskPixels m)))
      ((List.range (numAngles thetaStep)).product
        (List.range (numBuckets m.W m.H rho))), c ≠ (k₀, j₀) →
      cellVotes m.W m.H rho thetaStep (shuffle rand 0 (maskPixels m)) c < vt := by
    intro c hcm hne
    obtain ⟨c1, c2⟩ := c
    have hcm' := hperm.mem_iff.mp hcm
    obtain ⟨h1, h2⟩ := List.pair_mem_product.mp hcm'
    exact hlow (c1, c2) (List.mem_range.mp h1) (List.mem_range.mp h2) hne
  have hres := scanCells_unique m.W m.H rho thetaStep vt mll mlg
    (shuffle rand 0 (maskPixels m)) (k₀, j₀) hhot _ hcount hlowL
  simpa using hres

/-- C6 (amended): for an edge mask whose pixels concentrate in a single
above-threshold accumulator cell — all other cells staying below
threshold — and whose projection-sorted members form one run (consecutive
projected gaps within `maxLineGap`) of span at least `minLineLength`,
`detect` returns exactly one segment joining the run's extremal pixels.
(The spec's π/180 diagonal scenario with `maxLineGap = 0` instead returns
the empty sequence, per `detect_diag_scenario_refuted`.) -/
theorem detect_single_line_segment (rand : Nat → Nat) (m : EdgeMask)
    (rho thetaStep : ℝ) (vt mll mlg : Nat) (k₀ j₀ : Nat) (a₀ b₀ : Nat × Nat)
    (hrho : 0 < rho) (hts : 0 < thetaStep) (hvt : 1 ≤ vt) (harea : 0 < m.W * m.H)
    (hk : k₀ < numAngles thetaStep) (hj : j₀ < numBuckets m.W m.H rho)
    (hhot : vt ≤ cellVotes m.W m.H rho thetaStep
      (shuffle rand 0 (maskPixels m)) (k₀, j₀))
    (hlow : ∀ c : Nat × Nat, c.1 < numAngles thetaStep →
      c.2 < numBuckets m.W m.H rho → c ≠ (k₀, j₀) →
      cellVotes m.W m.H rho thetaStep (shuffle rand 0 (maskPixels m)) c < vt)
    (hhead : (sortKey (projOf thetaStep k₀) (cellMembers m.W m.H rho thetaStep
      (shuffle rand 0 (maskPixels m)) (k₀, j₀))).head? = some a₀)
    (hlast : (sortKey (projOf thetaStep k₀) (cellMembers m.W m.H rho thetaStep
      (shuffle rand 0 (maskPixels m)) (k₀, j₀))).getLast? = some b₀)
    (hchain : List.Chain'
      (fun x y => projOf thetaStep k₀ y - projOf thetaStep k₀ x ≤ (mlg : ℝ))
      (sortKey (projOf thetaStep k₀) (cellMembers m.W m.H rho thetaStep
        (shuffle rand 0 (maskPixels m)) (k₀, j₀))))
    (hspan : (mll : ℝ) ≤ projOf thetaStep k₀ b₀ - projOf thetaStep k₀ a₀) :
    detect rand m rho thetaStep vt mll mlg = Except.ok [(a₀, b₀)] := by
  have hg : ¬(rho ≤ 0 ∨ thetaStep ≤ 0 ∨ vt < 1 ∨ m.W * m.H = 0) := by
    push_neg
    exact ⟨by linarith, by linarith, by omega, by omega⟩
  rw [detect_unique_cell rand m rho thetaStep vt mll mlg k₀ j₀ hg hk hj hhot hlow]
  congr 1
  exact extractFrom_single thetaStep mll mlg k₀ _ a₀ b₀ hhead hlast hchain hspan

/-- C5: for an edge mask whose pixels concentrate in a single
above-threshold accumulator cell and whose projection-sorted members form
two collinear runs `A`, `B` (each internally within `maxLineGap`)
separated by a junction gap `g`: if `g ≤ maxLineGap` the runs merge into
exactly one segment spanning both; if `g > maxLineGap` they yield exactly
two segments, each of span at least `minLineLength`. -/
theorem detect_gap_merge_split (rand : Nat → Nat) (m : EdgeMask)
    (rho thetaStep : ℝ) (vt mll mlg : Nat) (k₀ j₀ : Nat)
    (A B : List (Nat × Nat)) (a₀ a₁ b₀ b₁ : Nat × Nat)
    (hrho : 0 < rho) (hts : 0 < thetaStep) (hvt : 1 ≤ vt) (harea : 0 < m.W * m.H)
    (hk : k₀ < numAngles thetaStep) (hj : j₀ < numBuckets m.W m.H rho)
    (hhot : vt ≤ cellVotes m.W m.H rho thetaStep
      (shuffle rand 0 (maskPixels m)) (k₀, j₀))
    (hlow : ∀ c : Nat × Nat, c.1 < numAngles thetaStep →
      c.2 < numBuckets m.W m.H rho → c ≠ (k₀, j₀) →
      cellVotes m.W m.H rho thetaStep (shuffle rand 0 (maskPixels m)) c < vt)
    (hsort : sortKey (projOf thetaStep k₀) (cellMembers m.W m.H rho thetaStep
      (shuffle rand 0 (maskPixels m)) (k₀, j₀)) = A ++ B)
    (hA0 : A.head? = some a₀) (hA1 : A.getLast? = some a₁)
    (hB0 : B.head? = some b₀) (hB1 : B.getLast? = some b₁)
    (hchA : List.Chain'
      (fun x y => projOf thetaStep k₀ y - projOf thetaStep k₀ x ≤ (mlg : ℝ)) A)
    (hchB : List.Chain'
      (fun x y => projOf thetaStep k₀ y - projOf thetaStep k₀ x ≤ (mlg : ℝ)) B) :
    (projOf thetaStep k₀ b₀ - projOf thetaStep k₀ a₁ ≤ (mlg : ℝ) →
      (mll : ℝ) ≤ projOf thetaStep k₀ b₁ - projOf thetaStep k₀ a₀ →
      detect rand m rho thetaStep vt mll mlg = Except.ok [(a₀, b₁)]) ∧
    ((mlg : ℝ) < projOf thetaStep k₀ b₀ - projOf thetaStep k₀ a₁ →
      (mll : ℝ) ≤ projOf thetaStep k₀ a₁ - projOf thetaStep k₀ a₀ →
      (mll : ℝ) ≤ projOf thetaStep k₀ b₁ - projOf thetaStep k₀ b₀ →
      detect rand m rho thetaStep vt mll mlg = Except.ok [(a₀, a₁), (b₀, b₁)]) := by
  have hg : ¬(rho ≤ 0 ∨ thetaStep ≤ 0 ∨ vt < 1 ∨ m.W * m.H = 0) := by
    push_neg
    exact ⟨by linarith, by linarith, by omega, by omega⟩
  have hBne : B ≠ [] := by intro h; rw [h] at hB0; simp at hB0
  have hbase := detect_unique_cell rand m rho thetaStep vt mll mlg k₀ j₀
    hg hk hj hhot hlow
  constructor
  · intro hjun hsp
    rw [hbase]
    congr 1
    have hh : ((A ++ B).head?) = some a₀ := by
      cases A with
      | nil => simp at hA0
      | cons x A' => simpa using hA0
    have hl : ((A ++ B).getLast?) = some b₁ := by
      rw [List.getLast?_append_of_ne_nil _ hBne]
      exact hB1
    have hch : List.Chain'
        (fun x y => projOf thetaStep k₀ y - projOf thetaStep k₀ x ≤ (mlg : ℝ))
        (A ++ B) := by
      refine List.chain'_append.mpr ⟨hchA, hchB, ?_⟩
      intro x hx y hy
      rw [hA1] at hx
      rw [hB0] at hy
      have hx' : x = a₁ := by
        cases hx
        rfl
      have hy' : y = b₀ := by
        cases hy
        rfl
      rw [hx', hy']
      exact hjun
    refine extractFrom_single thetaStep mll mlg k₀ _ a₀ b₁ ?_ ?_ ?_ hsp
    · rw [hsort]; exact hh
    · rw [hsort]; exact hl
    · rw [hsort]; exact hch
  · intro hjun hsp1 hsp2
    rw [hbase]
    congr 1
    exact extractFrom_two_runs thetaStep mll mlg k₀ _ A B a₀ a₁ b₀ b₁
      hsort hA0 hA1 hB0 hB1 hchA hchB hjun hsp1 hsp2

/-- The all-zero random source samples pixels in their enumeration
order. -/
theorem shuffleFuel_zero : ∀ (fuel pos : Nat) (l : List (Nat × Nat)),
    shuffleFuel rand0 pos fuel l = l.take fuel := by
  intro fuel
  induction fuel with
  | zero => intro pos l; rw [shuffleFuel, List.take_zero]
  | succ n ih =>
    intro pos l
    cases l with
    | nil => rw [shuffleFuel]; simp
    | cons a t =>
      rw [shuffleFuel]
      simp only [rand0, List.isEmpty_cons, Bool.false_eq_true, if_false,
        Nat.zero_mod, List.getD_cons_zero, List.eraseIdx_cons_zero,
        List.take_succ_cons]
      rw [ih]

/-- With the all-zero random source, the sampled order is the enumeration
order itself. -/
theorem shuffle_rand0 (pos : Nat) (l : List (Nat × Nat)) :
    shuffle rand0 pos l = l := by
  rw [shuffle, shuffleFuel_zero, List.take_length]

/-- With `thetaStep = π` there is a single angle bucket. -/
theorem numAngles_pi : numAngles Real.pi = 1 := by
  rw [numAngles, div_self Real.pi_ne_zero, Nat.ceil_one]

/-- The diagonal of the 5×5 grid. -/
theorem diagLen_55 : diagLen 5 5 = Real.sqrt 50 := by
  rw [diagLen]
  norm_num

/-- Lower numeric bound on `√50`. -/
theorem sqrt50_ge : (7 : ℝ) ≤ Real.sqrt 50 := by
  nlinarith [Real.sq_sqrt (show (0:ℝ) ≤ 50 by norm_num), Real.sqrt_nonneg 50]

/-- Upper numeric bound on `√50`. -/
theorem sqrt50_lt : Real.sqrt 50 < 8 := by
  nlinarith [Real.sq_sqrt (show (0:ℝ) ≤ 50 by norm_num), Real.sqrt_nonneg 50]

/-- The first angle bucket is the angle zero. -/
theorem theta0 : thetaOf Real.pi 0 = 0 := by
  rw [thetaOf]
  simp

/-- On the 5×5 grid with `rho = 1` and `thetaStep = π`, every pixel of the
column `x = 2` falls in distance bucket 9 of angle bucket 0. -/
theorem bucket20 : ∀ y : Nat, bucketOf 5 5 1 Real.pi 0 (2, y) = 9 := by
  intro y
  rw [bucketOf]
  have hr : rhoOf Real.pi 0 (2, y) = 2 := by
    rw [rhoOf, theta0]
    simp
  rw [hr, diagLen_55, div_one]
  have h7 := sqrt50_ge
  have h8 := sqrt50_lt
  rw [Nat.floor_eq_iff (by positivity)]
  constructor
  · push_cast
    linarith
  · push_cast
    linarith

/-- At angle bucket 0 the projection along the line direction is the `y`
coordinate. -/
theorem proj0 : ∀ p : Nat × Nat, projOf Real.pi 0 p = (p.2 : ℝ) := by
  intro p
  rw [projOf, theta0]
  simp

/-- Bucket 9 exists on the 5×5 grid with `rho = 1`. -/
theorem nb551 : 9 < numBuckets 5 5 1 := by
  rw [numBuckets, diagLen_55, div_one]
  have h9 : (8 : ℕ) < ⌈2 * Real.sqrt 50⌉₊ := by
    rw [Nat.lt_ceil]
    push_cast
    nlinarith [sqrt50_ge]
  omega

/-- The vertical-line mask's pixels, in sampling order. -/
theorem vline_pixels : shuffle rand0 0 (maskPixels vlineMask) =
    [(2, 0), (2, 1), (2, 2), (2, 3), (2, 4)] := by
  rw [shuffle_rand0]
  decide

/-- The hot cell (0, 9) of the vertical-line mask holds every pixel. -/
theorem vline_members : cellMembers 5 5 1 Real.pi
    (shuffle rand0 0 (maskPixels vlineMask)) (0, 9) =
    [(2, 0), (2, 1), (2, 2), (2, 3), (2, 4)] := by
  rw [cellMembers, vline_pixels]
  simp [List.filter, bucket20]

/-- The hot cell of the vertical-line mask reaches the threshold 5. -/
theorem vline_hot : 5 ≤ cellVotes 5 5 1 Real.pi
    (shuffle rand0 0 (maskPixels vlineMask)) (0, 9) := by
  rw [cellVotes, vline_members]
  norm_num

/-- Every other scanned cell of the vertical-line mask is empty. -/
theorem vline_low : ∀ c : Nat × Nat, c.1 < numAngles Real.pi →
    c.2 < numBuckets 5 5 1 → c ≠ (0, 9) →
    cellVotes 5 5 1 Real.pi (shuffle rand0 0 (maskPixels vlineMask)) c < 5 := by
  intro c h1 h2 hne
  obtain ⟨c1, c2⟩ := c
  rw [numAngles_pi] at h1
  have hc1 : c1 = 0 := by omega
  subst hc1
  have hc2 : c2 ≠ 9 := by
    intro he
    exact hne (by rw [he])
  rw [cellVotes, cellMembers, vline_pixels]
  simp [List.filter, bucket20, Ne.symm hc2]

/-- The hot cell's members are already sorted by projection. -/
theorem sortKey_vline : sortKey (projOf Real.pi 0)
    [(2, 0), (2, 1), (2, 2), (2, 3), (2, 4)] =
    [(2, 0), (2, 1), (2, 2), (2, 3), (2, 4)] := by
  norm_num [sortKey, insertKey, proj0]

/-- Concrete evaluation of the detector on the 5×5 vertical-line mask with
`rho = 1`, `thetaStep = π`, `voteThreshold = 5`, `minLineLength = 3`,
`maxLineGap = 1`: exactly one segment joining the line's extremes. -/
theorem detect_vline_eval :
    detect rand0 vlineMask 1 Real.pi 5 3 1 = Except.ok [((2, 0), (2, 4))] := by
  have hg : ¬((1 : ℝ) ≤ 0 ∨ Real.pi ≤ 0 ∨ 5 < 1 ∨ vlineMask.W * vlineMask.H = 0) := by
    push_neg
    refine ⟨by norm_num, Real.pi_pos, by norm_num, by norm_num [vlineMask]⟩
  rw [detect_unique_cell rand0 vlineMask 1 Real.pi 5 3 1 0 9 hg
    (by rw [numAngles_pi]; norm_num) nb551 vline_hot vline_low]
  congr 1
  refine extractFrom_single Real.pi 3 1 0 _ (2, 0) (2, 4) ?_ ?_ ?_ ?_
  · show (sortKey (projOf Real.pi 0) (cellMembers 5 5 1 Real.pi
      (shuffle rand0 0 (maskPixels vlineMask)) (0, 9))).head? = some (2, 0)
    rw [vline_members, sortKey_vline]
    rfl
  · show (sortKey (projOf Real.pi 0) (cellMembers 5 5 1 Real.pi
      (shuffle rand0 0 (maskPixels vlineMask)) (0, 9))).getLast? = some (2, 4)
    rw [vline_members, sortKey_vline]
    rfl
  · show List.Chain'
      (fun x y => projOf Real.pi 0 y - projOf Real.pi 0 x ≤ ((1 : Nat) : ℝ))
      (sortKey (projOf Real.pi 0) (cellMembers 5 5 1 Real.pi
        (shuffle rand0 0 (maskPixels vlineMask)) (0, 9)))
    rw [vline_members, sortKey_vline]
    simp only [List.chain'_cons, List.chain'_singleton, proj0]
    norm_num
  · show ((3 : Nat) : ℝ) ≤ projOf Real.pi 0 (2, 4) - projOf Real.pi 0 (2, 0)
    norm_num [proj0]

/-- Witness for C1: on the concrete vertical-line call, which returns the
single segment (2,0)–(2,4), both endpoints lie inside the 5×5 grid. -/
theorem detect_endpoints_in_bounds_witness :
    (((2, 0), (2, 4)) : LineSegment).1.1 < vlineMask.W ∧
    (((2, 0), (2, 4)) : LineSegment).1.2 < vlineMask.H ∧
    (((2, 0), (2, 4)) : LineSegment).2.1 < vlineMask.W ∧
    (((2, 0), (2, 4)) : LineSegment).2.2 < vlineMask.H :=
  detect_endpoints_in_bounds rand0 vlineMask 1 Real.pi 5 3 1 [((2, 0), (2, 4))]
    detect_vline_eval ((2, 0), (2, 4)) (List.mem_singleton.mpr rfl)

/-- Witness for C4: on the concrete vertical-line call, the returned
segment (2,0)–(2,4) has length at least `minLineLength = 3` and comes from
an accumulator cell with at least `voteThreshold = 5` votes containing both
endpoints. -/
theorem detect_min_length_and_votes_witness :
    ((3 : Nat) : ℝ) ≤ segLength (((2, 0), (2, 4)) : LineSegment) ∧
    ∃ c : Nat × Nat,
      5 ≤ cellVotes vlineMask.W vlineMask.H 1 Real.pi
        (shuffle rand0 0 (maskPixels vlineMask)) c ∧
      (((2, 0), (2, 4)) : LineSegment).1 ∈ cellMembers vlineMask.W vlineMask.H 1 Real.pi
        (shuffle rand0 0 (maskPixels vlineMask)) c ∧
      (((2, 0), (2, 4)) : LineSegment).2 ∈ cellMembers vlineMask.W vlineMask.H 1 Real.pi
        (shuffle rand0 0 (maskPixels vlineMask)) c :=
  detect_min_length_and_votes rand0 vlineMask 1 Real.pi 5 3 1 [((2, 0), (2, 4))]
    detect_vline_eval ((2, 0), (2, 4)) (List.mem_singleton.mpr rfl)

/-- Witness for C6 (amended): the 5×5 vertical-line mask with `rho = 1`,
`thetaStep = π`, `voteThreshold = 5`, `minLineLength = 3`, `maxLineGap = 1`
yields exactly one segment joining the line's extremes (2,0)–(2,4). -/
theorem detect_single_line_segment_witness :
    detect rand0 vlineMask 1 Real.pi 5 3 1 = Except.ok [((2, 0), (2, 4))] := by
  refine detect_single_line_segment rand0 vlineMask 1 Real.pi 5 3 1 0 9 (2, 0) (2, 4)
    (by norm_num) Real.pi_pos (by norm_num) (by norm_num [vlineMask])
    (by rw [numAngles_pi]; norm_num) nb551 vline_hot vline_low ?_ ?_ ?_ ?_
  · show (sortKey (projOf Real.pi 0) (cellMembers 5 5 1 Real.pi
      (shuffle rand0 0 (maskPixels vlineMask)) (0, 9))).head? = some (2, 0)
    rw [vline_members, sortKey_vline]
    rfl
  · show (sortKey (projOf Real.pi 0) (cellMembers 5 5 1 Real.pi
      (shuffle rand0 0 (maskPixels vlineMask)) (0, 9))).getLast? = some (2, 4)
    rw [vline_members, sortKey_vline]
    rfl
  · show List.Chain'
      (fun x y => projOf Real.pi 0 y - projOf Real.pi 0 x ≤ ((1 : Nat) : ℝ))
      (sortKey (projOf Real.pi 0) (cellMembers 5 5 1 Real.pi
        (shuffle rand0 0 (maskPixels vlineMask)) (0, 9)))
    rw [vline_members, sortKey_vline]
    simp only [List.chain'_cons, List.chain'_singleton, proj0]
    norm_num
  · show ((3 : Nat) : ℝ) ≤ projOf Real.pi 0 (2, 4) - projOf Real.pi 0 (2, 0)
    norm_num [proj0]

/-- Witness for C5 (merge case): the 5×5 mask with two vertical runs on
`x = 2` separated by a gap of 2 ≤ `maxLineGap = 2` merges into exactly one
segment (2,0)–(2,4). -/
theorem detect_gap_merge_split_witness :
    detect rand0 vgapMask 1 Real.pi 4 1 2 = Except.ok [((2, 0), (2, 4))] := by
  have hP : shuffle rand0 0 (maskPixels vgapMask) =
      [(2, 0), (2, 1), (2, 3), (2, 4)] := by
    rw [shuffle_rand0]
    decide
  have hM : cellMembers 5 5 1 Real.pi
      (shuffle rand0 0 (maskPixels vgapMask)) (0, 9) =
      [(2, 0), (2, 1), (2, 3), (2, 4)] := by
    rw [cellMembers, hP]
    simp [List.filter, bucket20]
  have hhot : 4 ≤ cellVotes 5 5 1 Real.pi
      (shuffle rand0 0 (maskPixels vgapMask)) (0, 9) := by
    rw [cellVotes, hM]
    norm_num
  have hlow : ∀ c : Nat × Nat, c.1 < numAngles Real.pi → c.2 < numBuckets 5 5 1 →
      c ≠ (0, 9) →
      cellVotes 5 5 1 Real.pi (shuffle rand0 0 (maskPixels vgapMask)) c < 4 := by
    intro c h1 h2 hne
    obtain ⟨c1, c2⟩ := c
    rw [numAngles_pi] at h1
    have hc1 : c1 = 0 := by omega
    subst hc1
    have hc2 : c2 ≠ 9 := by
      intro he
      exact hne (by rw [he])
    rw [cellVotes, cellMembers, hP]
    simp [List.filter, bucket20, Ne.symm hc2]
  have hS : sortKey (projOf Real.pi 0) [(2, 0), (2, 1), (2, 3), (2, 4)] =
      [(2, 0), (2, 1), (2, 3), (2, 4)] := by
    norm_num [sortKey, insertKey, proj0]
  have hsort : sortKey (projOf Real.pi 0) (cellMembers 5 5 1 Real.pi
      (shuffle rand0 0 (maskPixels vgapMask)) (0, 9)) =
      [(2, 0), (2, 1)] ++ [(2, 3), (2, 4)] := by
    rw [hM, hS]
    rfl
  have hmain := detect_gap_merge_split rand0 vgapMask 1 Real.pi 4 1 2 0 9
    [(2, 0), (2, 1)] [(2, 3), (2, 4)] (2, 0) (2, 1) (2, 3) (2, 4)
    (by norm_num) Real.pi_pos (by norm_num) (by norm_num [vgapMask])
    (by rw [numAngles_pi]; norm_num) nb551 hhot hlow hsort
    rfl rfl rfl rfl
    (by simp only [List.chain'_cons, List.chain'_singleton, proj0]; norm_num)
    (by simp only [List.chain'_cons, List.chain'_singleton, proj0]; norm_num)
  exact hmain.1 (by norm_num [proj0]) (by norm_num [proj0])

/-- C7: `detect` is deterministic given its random source: two invocations
with identical inputs (mask and parameters) and the same random-stream
position produce identical output sequences, equal in values and order. -/
theorem detect_deterministic (rand : Nat → Nat) (rho thetaStep : ℝ) (vt mll mlg : Nat)
    (st₁ st₂ : DetectState) (hm : st₁.mask = st₂.mask) (hp : st₁.randPos = st₂.randPos) :
    (detectRun rand rho thetaStep vt mll mlg st₁).2 =
      (detectRun rand rho thetaStep vt mll mlg st₂).2 ∧
    ∀ l₁ l₂, (detectRun rand rho thetaStep vt mll mlg st₁).2 = Except.ok l₁ →
      (detectRun rand rho thetaStep vt mll mlg st₂).2 = Except.ok l₂ →
      ∀ i, l₁.get? i = l₂.get? i := by
  have hst : st₁ = st₂ := by
    cases st₁; cases st₂
    simp only [DetectState.mk.injEq]
    exact ⟨hm, hp⟩
  subst hst
  refine ⟨rfl, ?_⟩
  intro l₁ l₂ h₁ h₂ i
  rw [h₁] at h₂
  cases h₂
  rfl

/-- Witness for C7: the two invocations on a concrete state coincide. -/
theorem detect_deterministic_witness :
    (detectRun rand0 1 1 1 0 0 ⟨blankMask, 0⟩).2 =
      (detectRun rand0 1 1 1 0 0 ⟨blankMask, 0⟩).2 ∧
    ∀ l₁ l₂, (detectRun rand0 1 1 1 0 0 ⟨blankMask, 0⟩).2 = Except.ok l₁ →
      (detectRun rand0 1 1 1 0 0 ⟨blankMask, 0⟩).2 = Except.ok l₂ →
      ∀ i, l₁.get? i = l₂.get? i :=
  detect_deterministic rand0 1 1 1 0 0 ⟨blankMask, 0⟩ ⟨blankMask, 0⟩ rfl rfl

/-- C8: a detector invocation has no side effects beyond consuming entropy
from the injected random source: the edge mask held in the state is
unchanged, the returned value is a pure function of the pre-state's mask
and random-stream position alone (the accumulator is internal to the
invocation), and two states agreeing on mask and stream position are
indistinguishable to it. -/
theorem detectRun_frame (rand : Nat → Nat) (rho thetaStep : ℝ) (vt mll mlg : Nat)
    (st : DetectState) :
    (detectRun rand rho thetaStep vt mll mlg st).1.mask = st.mask ∧
    (detectRun rand rho thetaStep vt mll mlg st).2 =
      detectFrom rand st.randPos st.mask rho thetaStep vt mll mlg ∧
    ∀ st' : DetectState, st'.mask = st.mask → st'.randPos = st.randPos →
      detectRun rand rho thetaStep vt mll mlg st' =
        detectRun rand rho thetaStep vt mll mlg st := by
  refine ⟨rfl, rfl, ?_⟩
  intro st' hm hp
  cases st; cases st'
  simp only at hm hp
  rw [hm, hp]

end Hough

namespace Notebook

/-- C9: when the Hough call reports no segments (the library returns
`None`), the notebook's unconditional `for line in lines` iteration raises
a `TypeError` instead of producing an output image: the no-lines outcome is
unhandled at the call site. -/
theorem hough_none_raises (s : PipeState) :
    houghDrawStage s none = Except.error PyErr.typeError := rfl

/-- C10: the notebook's drawing and compositing stage writes only into the
freshly created blank `line_image` and the new `lines_edges` array; the
original `image`, `edges` and `masked_edges` arrays are unchanged by the
Hough-and-draw stage. -/
theorem draw_stage_frame (s : PipeState) (lines : List PyLine) (st' : PipeState)
    (li le : Img) (h : houghDrawStage s (some lines) = Except.ok (st', li, le)) :
    st'.image = s.image ∧ st'.edges = s.edges ∧ st'.masked_edges = s.masked_edges := by
  simp only [houghDrawStage, Except.ok.injEq, Prod.mk.injEq] at h
  rw [← h.1]
  exact ⟨rfl, rfl, rfl⟩

/-- Witness for C10: the concrete all-black state with an empty segment
list passes through with its arrays intact. -/
theorem draw_stage_frame_witness :
    pipeS0.image = pipeS0.image ∧ pipeS0.edges = pipeS0.edges ∧
      pipeS0.masked_edges = pipeS0.masked_edges :=
  draw_stage_frame pipeS0 [] pipeS0 (fun _ _ => (0, 0, 0))
    (addWeighted (fun x y => (pipeS0.edges x y, pipeS0.edges x y, pipeS0.edges x y)) (4 / 5)
      (fun _ _ => (0, 0, 0)) 1 0) rfl

end Notebook
